import Mathlib

/-!
Shallow embedding of the `facet-hashmap` crate (src/erased.rs,
src/erased_hashmap.rs, src/facet_hashmap.rs) and proofs of the spec claims.

Values of the erased type are modelled by a Lean type parameter `α`; a facet
`Shape` descriptor becomes a record of the layout plus the optional hash,
equality and drop routine entries of the shape vtable that the engine reads.
Raw memory effects (heap allocation, destructor invocation, deallocation) are
modelled as explicit event traces, and undefined behaviour and panics
(`unwrap` on a missing vtable entry or on an unsized layout, reading the wrong
union branch, reading uninitialized memory) are modelled by `Option`, with
`none` for the panicking / undefined executions.
-/

namespace FacetHashmap

/-- A sized Rust layout: `std::alloc::Layout { size, align }`. -/
structure Layout where
  size : Nat
  align : Nat
deriving DecidableEq, Repr

/-- `facet::ShapeLayout`: either a sized layout or an unsized type. -/
inductive ShapeLayout where
  | sized (layout : Layout)
  | unsized
deriving DecidableEq, Repr

/-- `ShapeLayout::sized_layout`, whose `.unwrap()` panics on `unsized`. -/
def ShapeLayout.sized_layout : ShapeLayout → Option Layout
  | .sized layout => some layout
  | .unsized => none

/-- The part of a `facet::Shape` (type descriptor) for a type whose values are
modelled by `α` that this crate consumes: the layout and the three optional
vtable entries.  `hashFn` models the vtable hash routine by the canonical byte
stream it feeds to the hasher sink for a value; `partialEq` models the vtable
equality routine; `dropInPlace` is `some ()` when the
type has a destructor (its side effect is modelled as a `DropEvent`). -/
structure Shape (α : Type) where
  layout : ShapeLayout
  hashFn : Option (α → List Nat)
  partialEq : Option (α → α → Bool)
  dropInPlace : Option Unit

/-- `type InlineStorage = usize;` — size of `usize` on the 64-bit target. -/
def usizeSize : Nat := 8

/-- Alignment of `usize` on the 64-bit target. -/
def usizeAlign : Nat := 8

/-- `ErasedStorage` from src/erased.rs: the storage policy for a shape. -/
inductive ErasedStorage where
  | Inline
  | Boxed
deriving DecidableEq, Repr

/-- `ErasedStorage::for_shape`: inline exactly for a sized layout with
`size <= size_of::<usize>()` and `align <= align_of::<usize>()`. -/
def ErasedStorage.for_shape {α : Type} (shape : Shape α) : ErasedStorage :=
  match shape.layout with
  | .sized layout =>
      if layout.size ≤ usizeSize ∧ layout.align ≤ usizeAlign then .Inline else .Boxed
  | .unsized => .Boxed

/-- The union `ErasedUninit`.  The real union is untagged; the constructor here
records which branch the cell's bytes currently hold (chosen at `uninit` from
the shape, and clobbered by writes), and an access through the wrong branch is
undefined behaviour, modelled as `none` by the access functions.  `contents`
is `none` while the branch's storage is uninitialized.  The `boxedPtr` branch
records the layout the heap allocation was made with. -/
inductive ErasedUninit (α : Type) where
  | inline (contents : Option α)
  | boxedPtr (allocLayout : Layout) (contents : Option α)

/-- A heap-allocation event, recording the layout passed to `std::alloc::alloc`. -/
inductive AllocEvent where
  | alloc (layout : Layout)
deriving DecidableEq, Repr

/-- A memory-reclamation event of a single erased cell: the invocation of the
shape's `drop_in_place` routine on the stored value, or the
`std::alloc::dealloc` of the cell's heap allocation with a given layout. -/
inductive DropEvent (α : Type) where
  | destructorCall (v : α)
  | dealloc (layout : Layout)

/-- Writing a value through `ErasedUninit::as_ptr(shape)` followed by
`PtrUninit::put`: the branch is selected by `ErasedStorage::for_shape`.  A
write through the `boxedPtr` branch of a cell whose bytes are not a valid heap
pointer is undefined behaviour (`none`). -/
def ErasedUninit.write {α : Type} (u : ErasedUninit α) (shape : Shape α) (v : α) :
    Option (ErasedUninit α) :=
  match ErasedStorage.for_shape shape with
  | .Inline => some (.inline (some v))
  | .Boxed =>
      match u with
      | .boxedPtr allocLayout _ => some (.boxedPtr allocLayout (some v))
      | .inline _ => none

/-- Reading through `ErasedUninit::as_const_ptr_assume_init(shape)` followed by
a typed read: the branch is selected by `ErasedStorage::for_shape`; reading the
wrong branch or uninitialized storage is undefined behaviour (`none`). -/
def ErasedUninit.read {α : Type} (u : ErasedUninit α) (shape : Shape α) : Option α :=
  match ErasedStorage.for_shape shape, u with
  | .Inline, .inline contents => contents
  | .Boxed, .boxedPtr _ contents => contents
  | _, _ => none

/-- `struct Erased(ErasedUninit)` — an `ErasedUninit` asserted initialized
(`assume_init` adds no check, so the representation is unchanged). -/
structure Erased (α : Type) where
  uninitRepr : ErasedUninit α

namespace Erased

/-- `Erased::uninit(shape)`: inline layout needs no allocation; boxed layout
performs one heap allocation with `shape.layout.sized_layout().unwrap()`
(the `unwrap` panics — `none` — on an unsized layout).  Returns the cell and
the allocation-event trace. -/
def uninit {α : Type} (shape : Shape α) : Option (ErasedUninit α × List AllocEvent) :=
  match ErasedStorage.for_shape shape with
  | .Inline => some (.inline none, [])
  | .Boxed =>
      match shape.layout.sized_layout with
      | some layout => some (.boxedPtr layout none, [AllocEvent.alloc layout])
      | none => none

/-- `Erased::new(value)` for a type with descriptor `shape`: `uninit`, write
the value through `as_ptr(shape)`, `assume_init`. -/
def new {α : Type} (shape : Shape α) (value : α) : Option (Erased α × List AllocEvent) := do
  let (u, events) ← uninit shape
  let u₂ ← u.write shape value
  pure (⟨u₂⟩, events)

/-- `Erased::as_ptr(shape)` followed by a typed read of the pointee. -/
def read {α : Type} (e : Erased α) (shape : Shape α) : Option α :=
  e.uninitRepr.read shape

/-- `Erased::into_typed::<T>()`: reads the value out of the cell through
`T`'s shape (the cell's ownership is forgotten, so no drop occurs). -/
def into_typed {α : Type} (e : Erased α) (shape : Shape α) : Option α :=
  e.read shape

/-- The closure `Erased::drop_fn` returns, as a named function of its three
captures (`storage`, `drop_in_place`, `layout`).  Inline storage: invoke the
destructor (when present) on the inline branch's value.  Boxed storage: read
the `boxed_ptr` branch, invoke the destructor (when present) on the pointee,
then `dealloc` with the captured layout.  Reading a branch the cell does not
hold, or running the destructor on uninitialized contents, is undefined
(`none`). -/
def dropRoutine {α : Type} (storage : ErasedStorage) (dropper : Option Unit)
    (layout : Layout) (cell : Erased α) : Option (List (DropEvent α)) :=
  match storage with
  | .Inline =>
      match dropper with
      | some _ =>
          match cell.uninitRepr with
          | .inline (some v) => some [DropEvent.destructorCall v]
          | _ => none
      | none => some []
  | .Boxed =>
      match cell.uninitRepr with
      | .boxedPtr _ contents =>
          match dropper with
          | some _ =>
              match contents with
              | some v => some [DropEvent.destructorCall v, DropEvent.dealloc layout]
              | none => none
          | none => some [DropEvent.dealloc layout]
      | .inline _ => none

/-- `Erased::drop_fn(shape)`.  The outer `Option` models the panic of
`shape.layout.sized_layout().unwrap()` on an unsized layout; the inner
`Option` is the function's own result: `none` for `(Inline, no destructor)`
— no routine needed — and otherwise the `dropRoutine` closure over the
captured storage decision, destructor and layout. -/
def drop_fn {α : Type} (shape : Shape α) :
    Option (Option (Erased α → Option (List (DropEvent α)))) := do
  let layout ← shape.layout.sized_layout
  match ErasedStorage.for_shape shape, shape.dropInPlace with
  | .Inline, none => pure none
  | storage, dropper => pure (some (dropRoutine storage dropper layout))

end Erased

/-- `ErasedKey`: a newtype tag around an erased cell used as a map key. -/
structure ErasedKey (α : Type) where
  toErased : Erased α

/-- `ErasedValue`: a newtype tag around an erased cell used as a map value. -/
structure ErasedValue (α : Type) where
  toErased : Erased α

/-- `HashTableEntry { key, value }`. -/
structure HashTableEntry (α β : Type) where
  key : ErasedKey α
  value : ErasedValue β

/-- The external `hashbrown::HashTable<HashTableEntry>`, modelled as the list
of resident entries, each paired with the 64-bit hash hashbrown stored for it
when the entry was inserted.  Probing order is abstracted to list order; this
is observation-equivalent for tables that never hold two entries with equal
keys, which the typed façade maintains. -/
abbrev HashTable (α β : Type) : Type := List (Nat × HashTableEntry α β)

/-- `ErasedHashMap<S>`: the raw table plus the hash-builder.  The builder `S`
is modelled by the (deterministic) function taking the byte stream a hash
routine writes into a fresh `S::Hasher` to the finished 64-bit hash. -/
structure ErasedHashMap (α β : Type) where
  hash_table : HashTable α β
  hash_builder : List Nat → Nat

/-- `make_key_ref_hasher`: unwraps the shape vtable's hash routine (panic —
`none` — when absent) and returns the closure hashing a borrowed key by
feeding its canonical bytes into a fresh hasher from the builder. -/
def make_key_ref_hasher {α : Type} (hash_builder : List Nat → Nat) (key_shape : Shape α) :
    Option (α → Nat) := do
  let hash_fn ← key_shape.hashFn
  pure (fun key_ref => hash_builder (hash_fn key_ref))

/-- `make_hash`: hash one borrowed key with `make_key_ref_hasher`. -/
def make_hash {α : Type} (hash_builder : List Nat → Nat) (key_ref : α) (key_shape : Shape α) :
    Option Nat :=
  (make_key_ref_hasher hash_builder key_shape).map (fun h => h key_ref)

/-- `make_eq`: unwraps the shape vtable's equality routine (panic — `none` —
when absent) and returns the predicate comparing the probe key against a
table entry's resident key, read through `key_shape`.  The returned predicate
is `Option`-valued because reading the entry's key cell through the wrong
shape is undefined behaviour. -/
def make_eq {α β : Type} (key_ref : α) (key_shape : Shape α) :
    Option (HashTableEntry α β → Option Bool) := do
  let eq ← key_shape.partialEq
  pure (fun entry => (entry.key.toErased.read key_shape).map (fun k => eq key_ref k))

/-- `HashTable::entry` followed by the two match arms of
`ErasedHashMap::insert`: walk the residents; on an entry whose stored hash
matches, evaluate the equality predicate — if it holds, `mem::replace` the
entry's value cell in place (the entry keeps its resident key cell) and hand
the displaced value cell back; if no resident matches, insert the new
`(key, value)` entry at the vacant slot.  `none` models an execution in which
an equality check was undefined. -/
def tableInsert {α β : Type} (eqE : HashTableEntry α β → Option Bool) (hash : Nat)
    (key : ErasedKey α) (value : ErasedValue β) :
    HashTable α β → Option (HashTable α β × Option (ErasedValue β))
  | [] => some ([(hash, ⟨key, value⟩)], none)
  | (storedHash, entry) :: rest =>
      if storedHash = hash then
        match eqE entry with
        | none => none
        | some true => some ((storedHash, ⟨entry.key, value⟩) :: rest, some entry.value)
        | some false => do
            let (t, old) ← tableInsert eqE hash key value rest
            pure ((storedHash, entry) :: t, old)
      else do
        let (t, old) ← tableInsert eqE hash key value rest
        pure ((storedHash, entry) :: t, old)

/-- `HashTable::find`: walk the residents; on an entry whose stored hash
matches, evaluate the equality predicate; return the first entry for which
it holds, if any. -/
def tableFind {α β : Type} (eqE : HashTableEntry α β → Option Bool) (hash : Nat) :
    HashTable α β → Option (Option (HashTableEntry α β))
  | [] => some none
  | (storedHash, entry) :: rest =>
      if storedHash = hash then
        match eqE entry with
        | none => none
        | some true => some (some entry)
        | some false => tableFind eqE hash rest
      else tableFind eqE hash rest

/-- An event observable during destruction of the erased table: a `DropEvent`
of a resident key cell or of a resident value cell. -/
inductive TableDropEvent (α β : Type) where
  | key (e : DropEvent α)
  | value (e : DropEvent β)

namespace ErasedHashMap

/-- `ErasedHashMap::insert`: hash the key cell's value through `key_shape`,
probe with the equality predicate from `key_shape`, replace the value cell of
an equal-keyed occupied entry (returning the displaced value cell) or insert
a fresh entry.  The third component is the trace of destruction events the
call emits: the source never invokes any drop routine here (in the occupied
arm the no-longer-needed key cell is simply discarded, and `Erased` has no
drop glue), so the trace is empty. -/
def insert {α β : Type} (m : ErasedHashMap α β) (key : ErasedKey α) (key_shape : Shape α)
    (value : ErasedValue β) :
    Option (ErasedHashMap α β × Option (ErasedValue β) × List (TableDropEvent α β)) := do
  let k ← key.toErased.read key_shape
  let hash ← make_hash m.hash_builder k key_shape
  let eqE ← make_eq k key_shape
  let (t, old) ← tableInsert eqE hash key value m.hash_table
  pure (⟨t, m.hash_builder⟩, old, [])

/-- `ErasedHashMap::get`: hash the borrowed key, probe with the equality
predicate, return a reference to the found entry's value cell or `None`.
The outer `Option` models panics and undefined executions; the inner one is
the function's own `Option<&ErasedValue>` result. -/
def get {α β : Type} (m : ErasedHashMap α β) (key_ref : α) (key_shape : Shape α) :
    Option (Option (ErasedValue β)) := do
  let hash ← make_hash m.hash_builder key_ref key_shape
  let eqE ← make_eq key_ref key_shape
  let found ← tableFind eqE hash m.hash_table
  pure (found.map (fun entry => entry.value))

/-- `if let Some(routine) = &routine { routine(cell) }`: invoke the drop
routine when one exists, else no events. -/
def applyDropRoutine {α : Type} (routine : Option (Erased α → Option (List (DropEvent α))))
    (cell : Erased α) : Option (List (DropEvent α)) :=
  match routine with
  | some f => f cell
  | none => pure []

/-- The loop body of `drop_keys_and_values` for one resident entry: invoke
the key drop routine (when one exists) on the entry's key cell and the value
drop routine (when one exists) on its value cell; the events of the key cell
precede those of the value cell, as in the source's statement order. -/
def entryDropEvents {α β : Type}
    (drop_key : Option (Erased α → Option (List (DropEvent α))))
    (drop_value : Option (Erased β → Option (List (DropEvent β))))
    (p : Nat × HashTableEntry α β) : Option (List (TableDropEvent α β)) := do
  let keyEvents ← applyDropRoutine drop_key p.2.key.toErased
  let valueEvents ← applyDropRoutine drop_value p.2.value.toErased
  pure (keyEvents.map TableDropEvent.key ++ valueEvents.map TableDropEvent.value)

/-- `ErasedHashMap::drop_keys_and_values`: build the two drop routines from
the shapes; when at least one exists, iterate every resident entry and invoke
the key routine (when present) on its key cell and the value routine (when
present) on its value cell.  Returns the trace of destruction events. -/
def drop_keys_and_values {α β : Type} (m : ErasedHashMap α β) (key_shape : Shape α)
    (value_shape : Shape β) : Option (List (TableDropEvent α β)) := do
  let drop_key ← Erased.drop_fn key_shape
  let drop_value ← Erased.drop_fn value_shape
  if drop_key.isSome || drop_value.isSome then
    let eventLists ← m.hash_table.mapM (entryDropEvents drop_key drop_value)
    pure eventLists.flatten
  else
    pure []

end ErasedHashMap

/-- `FacetHashMap<K, V, S>` from src/facet_hashmap.rs: the typed façade over
the erased map.  The type parameters K and V are fixed for the map's
lifetime; their shapes (`K::SHAPE`, `V::SHAPE`) are passed to the operations
explicitly here. -/
structure FacetHashMap (α β : Type) where
  hash_map : ErasedHashMap α β

/-- An event observable while a `FacetHashMap` is destroyed: a destruction
event of a resident cell emitted by `drop_keys_and_values`, or the release of
the raw `hashbrown` table storage when the `hash_map` field is dropped. -/
inductive FacadeDropEvent (α β : Type) where
  | table (e : TableDropEvent α β)
  | releaseRawStorage

namespace FacetHashMap

/-- A fresh, empty `FacetHashMap` (the `Default` impl), with the given
hash-builder. -/
def emptyWith {α β : Type} (hash_builder : List Nat → Nat) : FacetHashMap α β :=
  ⟨⟨[], hash_builder⟩⟩

/-- `FacetHashMap::insert(key, value)`: erase both through K's and V's
shapes, call the erased insert, and un-erase a displaced value cell back into
a typed value for the caller.  The trace component records destruction events
emitted during the call. -/
def insert {α β : Type} (m : FacetHashMap α β) (key_shape : Shape α) (value_shape : Shape β)
    (key : α) (value : β) :
    Option (FacetHashMap α β × Option β × List (TableDropEvent α β)) := do
  let (erased_key, _) ← Erased.new key_shape key
  let (erased_value, _) ← Erased.new value_shape value
  let (m', old_erased_value, events) ← m.hash_map.insert ⟨erased_key⟩ key_shape ⟨erased_value⟩
  let old ← match old_erased_value with
    | some cell => (cell.toErased.into_typed value_shape).map some
    | none => pure none
  pure (⟨m'⟩, old, events)

/-- `FacetHashMap::get(key)`: delegate to the erased get and read the found
value cell through V's shape. -/
def get {α β : Type} (m : FacetHashMap α β) (key_shape : Shape α) (value_shape : Shape β)
    (key : α) : Option (Option β) := do
  let found ← m.hash_map.get key key_shape
  match found with
  | some cell => (cell.toErased.read value_shape).map some
  | none => pure none

/-- The destruction of a `FacetHashMap` (`impl Drop`): the drop body runs
`ErasedHashMap::drop_keys_and_values(&mut self.hash_map, K::SHAPE, V::SHAPE)`
first; only afterwards does Rust drop the fields, releasing the raw
`hashbrown` table storage. -/
def dropEvents {α β : Type} (m : FacetHashMap α β) (key_shape : Shape α)
    (value_shape : Shape β) : Option (List (FacadeDropEvent α β)) := do
  let events ← m.hash_map.drop_keys_and_values key_shape value_shape
  pure (events.map FacadeDropEvent.table ++ [FacadeDropEvent.releaseRawStorage])

/-- Run a sequence of typed-façade inserts starting from `m`. -/
def runInserts {α β : Type} (key_shape : Shape α) (value_shape : Shape β)
    (m : FacetHashMap α β) : List (α × β) → Option (FacetHashMap α β)
  | [] => some m
  | (k, v) :: rest => do
      let (m', _, _) ← m.insert key_shape value_shape k v
      runInserts key_shape value_shape m' rest

end FacetHashMap

/-! ### Specification-level model

An association-list model of map semantics, written from the spec's words
("the new value cell replaces the old one in place", "`get(k)` after
`insert(k, v)` returns `Some(&v)` until a later `insert(k, v2)` replaces
it").  The refinement theorems compare the embedded code against it. -/

/-- Spec-level insert on an association list under equality `e`: replace the
value of the first entry with an equal key (keeping that entry's key and
returning the displaced value), or append a new pair. -/
def specInsert {α β : Type} (e : α → α → Bool) (k : α) (v : β) :
    List (α × β) → List (α × β) × Option β
  | [] => ([(k, v)], none)
  | (k', v') :: rest =>
      if e k k' then ((k', v) :: rest, some v')
      else
        let r := specInsert e k v rest
        ((k', v') :: r.1, r.2)

/-- Spec-level lookup: the value of the first entry with an equal key. -/
def specLookup {α β : Type} (e : α → α → Bool) (k : α) : List (α × β) → Option β
  | [] => none
  | (k', v') :: rest => if e k k' then some v' else specLookup e k rest

/-- Spec-level run of a sequence of inserts. -/
def specRun {α β : Type} (e : α → α → Bool) (init : List (α × β)) (ops : List (α × β)) :
    List (α × β) :=
  ops.foldl (fun t p => (specInsert e p.1 p.2 t).1) init

/-- The value of the last insert in `ops` whose key equals `k`, if any — the
spec's "until a later `insert(k, v2)` replaces it". -/
def lastVal {α β : Type} (e : α → α → Bool) (k : α) (ops : List (α × β)) : Option β :=
  ops.foldl (fun acc p => if e k p.1 then some p.2 else acc) none

/-- The lawfulness contract of a key descriptor used by a hash map, with
equality routine `e` and hash routine `f`: both routines are present on the
shape, the layout is sized (so keys can be erased at all), `e` is an
equivalence, and equal keys hash to the same canonical byte stream — the
standard `Hash`/`Eq` consistency contract the typed façade's trait bounds
demand of `K`. -/
structure LawfulKey {α : Type} (s : Shape α) (f : α → List Nat) (e : α → α → Bool) : Prop where
  sized : s.layout.sized_layout.isSome
  hash_eq : s.hashFn = some f
  eq_eq : s.partialEq = some e
  refl : ∀ a, e a a = true
  symm : ∀ a b, e a b = e b a
  trans : ∀ a b c, e a b = true → e b c = true → e a c = true
  hash_coherent : ∀ a b, e a b = true → f a = f b

/-- One stored table entry represents one spec pair: the stored hashbrown
hash is the hash of the key's canonical bytes, and the key and value cells
read back (through the two shapes) to the pair's components. -/
def EntryRep {α β : Type} (hb : List Nat → Nat) (ks : Shape α) (vs : Shape β)
    (f : α → List Nat) (p : Nat × HashTableEntry α β) (kv : α × β) : Prop :=
  p.1 = hb (f kv.1) ∧ p.2.key.toErased.read ks = some kv.1 ∧
    p.2.value.toErased.read vs = some kv.2

/-- The typed façade's state represents a spec association list. -/
def MapRep {α β : Type} (hb : List Nat → Nat) (ks : Shape α) (vs : Shape β)
    (f : α → List Nat) (m : FacetHashMap α β) (spec : List (α × β)) : Prop :=
  m.hash_map.hash_builder = hb ∧
    List.Forall₂ (EntryRep hb ks vs f) m.hash_map.hash_table spec

/-- Every resident entry's key and value cells are readable through the two
shapes (the state every table reached through the typed façade is in). -/
def TableReadable {α β : Type} (ks : Shape α) (vs : Shape β) (m : ErasedHashMap α β) : Prop :=
  ∀ p ∈ m.hash_table, (p.2.key.toErased.read ks).isSome ∧
    (p.2.value.toErased.read vs).isSome

/-- Classifier: a cell destruction event that is a destructor invocation
(as opposed to a deallocation). -/
def DropEvent.isDestructorCall {α : Type} : DropEvent α → Bool
  | .destructorCall _ => true
  | .dealloc _ => false

/-- Classifier: a table destruction event that is an invocation of the key
descriptor's destructor. -/
def isKeyDestructorCall {α β : Type} : TableDropEvent α β → Bool
  | .key (.destructorCall _) => true
  | _ => false

/-- Classifier: a table destruction event that is an invocation of the value
descriptor's destructor. -/
def isValueDestructorCall {α β : Type} : TableDropEvent α β → Bool
  | .value (.destructorCall _) => true
  | _ => false

/-- Classifier for façade destruction events: key-destructor invocations. -/
def FacadeDropEvent.isKeyDestructorCall {α β : Type} : FacadeDropEvent α β → Bool
  | .table e => FacetHashmap.isKeyDestructorCall e
  | .releaseRawStorage => false

/-- Classifier for façade destruction events: value-destructor invocations. -/
def FacadeDropEvent.isValueDestructorCall {α β : Type} : FacadeDropEvent α β → Bool
  | .table e => FacetHashmap.isValueDestructorCall e
  | .releaseRawStorage => false

/-- Classifier for façade destruction events: release of the raw table storage. -/
def FacadeDropEvent.isRelease {α β : Type} : FacadeDropEvent α β → Bool
  | .releaseRawStorage => true
  | _ => false

/-! ### Concrete instances for witnesses -/

/-- A descriptor of an inline-stored, trivially-destructible key type (e.g.
`u64`), with values modelled by `Nat`. -/
def inlineNatShape : Shape Nat :=
  { layout := .sized ⟨8, 8⟩, hashFn := some (fun n => [n]),
    partialEq := some (fun a b => a == b), dropInPlace := none }

/-- A descriptor of a heap-stored type with a destructor (e.g. a 16-byte
struct with a `Drop` impl), with values modelled by `Nat`. -/
def boxedNatShape : Shape Nat :=
  { layout := .sized ⟨16, 8⟩, hashFn := some (fun n => [n]),
    partialEq := some (fun a b => a == b), dropInPlace := some () }

/-- A concrete deterministic hash-builder model. -/
def exampleBuilder : List Nat → Nat :=
  fun l => l.foldl (fun a b => a * 31 + b) 7

/-- A concrete resident entry (inline key cell, boxed value cell) with the
stored hash `exampleBuilder` computes for the key. -/
def witnessEntry (k v : Nat) : Nat × HashTableEntry Nat Nat :=
  (exampleBuilder [k], ⟨⟨⟨.inline (some k)⟩⟩, ⟨⟨.boxedPtr ⟨16, 8⟩ (some v)⟩⟩⟩)

/-- A concrete erased map with two resident entries. -/
def witnessMap : ErasedHashMap Nat Nat :=
  ⟨[witnessEntry 1 10, witnessEntry 2 20], exampleBuilder⟩

/-- The typed façade over `witnessMap`. -/
def witnessFacetMap : FacetHashMap Nat Nat := ⟨witnessMap⟩

/-! ## Theorems -/

/-- On a sized layout, the storage-policy decision spelt out. -/
theorem for_shape_sized {α : Type} (s : Shape α) (l : Layout) (hl : s.layout = .sized l) :
    ErasedStorage.for_shape s =
      if l.size ≤ usizeSize ∧ l.align ≤ usizeAlign then .Inline else .Boxed := by
  simp [ErasedStorage.for_shape, hl]

/-- A cell built by `Erased::new` through a sized shape reads back to the
value that was written (shared round-trip lemma). -/
theorem Erased.new_read {α : Type} (s : Shape α) (l : Layout)
    (hs : s.layout.sized_layout = some l) (v : α) :
    ∃ c ev, Erased.new s v = some (c, ev) ∧ Erased.read c s = some v := by
  cases hfs : ErasedStorage.for_shape s with
  | Inline =>
      refine ⟨⟨.inline (some v)⟩, [], ?_, ?_⟩
      · simp [Erased.new, Erased.uninit, hfs, ErasedUninit.write]
      · simp [Erased.read, ErasedUninit.read, hfs]
  | Boxed =>
      refine ⟨⟨.boxedPtr l (some v)⟩, [AllocEvent.alloc l], ?_, ?_⟩
      · simp [Erased.new, Erased.uninit, hfs, hs, ErasedUninit.write]
      · simp [Erased.read, ErasedUninit.read, hfs]

/-- Claim C4: for every value v of a storable (sized) type, erasing v into a
cell created from the type's descriptor (`uninit` followed by writing v) and
reading it back with `into_typed` yields v again; the statement covers every
sized shape, hence both the inline and the heap-resident layout. -/
theorem claim_C4 {α : Type} (s : Shape α) (l : Layout)
    (hs : s.layout.sized_layout = some l) (v : α) :
    ∃ c ev, Erased.new s v = some (c, ev) ∧ Erased.into_typed c s = some v := by
  obtain ⟨c, ev, h₁, h₂⟩ := Erased.new_read s l hs v
  exact ⟨c, ev, h₁, h₂⟩

/-- Witness for C4 at a heap-resident layout and a concrete value. -/
theorem claim_C4_witness :
    ∃ c ev, Erased.new boxedNatShape 42 = some (c, ev) ∧
      Erased.into_typed c boxedNatShape = some 42 :=
  claim_C4 boxedNatShape ⟨16, 8⟩ rfl 42

/-- Claim C7: for every sized descriptor, storage is inline exactly when the
size is at most one machine word and the alignment at most the word's
alignment, and boxed otherwise; `uninit` performs no allocation in the inline
case and exactly one allocation with the descriptor's own layout in the boxed
case. -/
theorem claim_C7 {α : Type} (s : Shape α) (l : Layout) (hl : s.layout = .sized l) :
    (ErasedStorage.for_shape s = .Inline ↔ l.size ≤ usizeSize ∧ l.align ≤ usizeAlign) ∧
    ∃ u ev, Erased.uninit s = some (u, ev) ∧
      (ErasedStorage.for_shape s = .Inline → ev = []) ∧
      (ErasedStorage.for_shape s = .Boxed → ev = [AllocEvent.alloc l]) := by
  constructor
  · rw [for_shape_sized s l hl]
    split
    · simp_all
    · simp_all
  · cases hfs : ErasedStorage.for_shape s with
    | Inline =>
        refine ⟨.inline none, [], ?_, fun _ => rfl, ?_⟩
        · simp [Erased.uninit, hfs]
        · simp
    | Boxed =>
        refine ⟨.boxedPtr l none, [AllocEvent.alloc l], ?_, ?_, fun _ => rfl⟩
        · simp [Erased.uninit, hfs, hl, ShapeLayout.sized_layout]
        · simp

/-- Witness for C7 at a concrete boxed shape. -/
theorem claim_C7_witness :
    (ErasedStorage.for_shape boxedNatShape = .Inline ↔
      (16 : Nat) ≤ usizeSize ∧ (8 : Nat) ≤ usizeAlign) ∧
    ∃ u ev, Erased.uninit boxedNatShape = some (u, ev) ∧
      (ErasedStorage.for_shape boxedNatShape = .Inline → ev = []) ∧
      (ErasedStorage.for_shape boxedNatShape = .Boxed → ev = [AllocEvent.alloc ⟨16, 8⟩]) :=
  claim_C7 boxedNatShape ⟨16, 8⟩ rfl

/-- Claim C8: the cell destruction routine of a sized descriptor: with no
destructor and inline storage it is absent (no-op); with a destructor it
invokes it, first, on the current branch's value; with heap-resident storage
it always ends by releasing the allocation with the descriptor's layout —
the same layout `uninit` allocated with — even when no destructor exists. -/
theorem claim_C8 {α : Type} (s : Shape α) (l : Layout) (hl : s.layout = .sized l) :
    (ErasedStorage.for_shape s = .Inline → s.dropInPlace = none →
        Erased.drop_fn s = some none) ∧
    (∀ u : Unit, s.dropInPlace = some u →
        ∃ g, Erased.drop_fn s = some (some g) ∧
          ∀ cell v, Erased.read cell s = some v →
            ∃ es, g cell = some es ∧ es.head? = some (DropEvent.destructorCall v)) ∧
    (ErasedStorage.for_shape s = .Boxed →
        ∃ g, Erased.drop_fn s = some (some g) ∧
          (∀ u ev, Erased.uninit s = some (u, ev) → ev = [AllocEvent.alloc l]) ∧
          ∀ cell v, Erased.read cell s = some v →
            ∃ es, g cell = some es ∧ es.getLast? = some (DropEvent.dealloc l) ∧
              (s.dropInPlace = none → es = [DropEvent.dealloc l])) := by
  have hsl : s.layout.sized_layout = some l := by rw [hl]; rfl
  refine ⟨?_, ?_, ?_⟩
  · intro hfs hnd
    simp [Erased.drop_fn, hsl, hfs, hnd]
  · intro u hd
    cases hfs : ErasedStorage.for_shape s with
    | Inline =>
        refine ⟨Erased.dropRoutine .Inline (some u) l,
          by simp [Erased.drop_fn, hsl, hfs, hd], ?_⟩
        intro cell v hv
        cases cell with
        | mk repr =>
          cases repr with
          | inline contents =>
              have hc : contents = some v := by
                simpa [Erased.read, ErasedUninit.read, hfs] using hv
              subst hc
              exact ⟨_, rfl, rfl⟩
          | boxedPtr al contents =>
              exact absurd hv (by simp [Erased.read, ErasedUninit.read, hfs])
    | Boxed =>
        refine ⟨Erased.dropRoutine .Boxed (some u) l,
          by simp [Erased.drop_fn, hsl, hfs, hd], ?_⟩
        intro cell v hv
        cases cell with
        | mk repr =>
          cases repr with
          | inline contents =>
              exact absurd hv (by simp [Erased.read, ErasedUninit.read, hfs])
          | boxedPtr al contents =>
              have hc : contents = some v := by
                simpa [Erased.read, ErasedUninit.read, hfs] using hv
              subst hc
              exact ⟨_, rfl, rfl⟩
  · intro hfs
    have huninit : ∀ u ev, Erased.uninit s = some (u, ev) → ev = [AllocEvent.alloc l] := by
      intro u ev h
      simp [Erased.uninit, hfs, hl, ShapeLayout.sized_layout] at h
      exact h.2.symm
    cases hd : s.dropInPlace with
    | none =>
        refine ⟨Erased.dropRoutine .Boxed none l,
          by simp [Erased.drop_fn, hsl, hfs, hd], huninit, ?_⟩
        intro cell v hv
        cases cell with
        | mk repr =>
          cases repr with
          | inline contents =>
              exact absurd hv (by simp [Erased.read, ErasedUninit.read, hfs])
          | boxedPtr al contents =>
              exact ⟨_, rfl, rfl, fun _ => rfl⟩
    | some u =>
        refine ⟨Erased.dropRoutine .Boxed (some u) l,
          by simp [Erased.drop_fn, hsl, hfs, hd], huninit, ?_⟩
        intro cell v hv
        cases cell with
        | mk repr =>
          cases repr with
          | inline contents =>
              exact absurd hv (by simp [Erased.read, ErasedUninit.read, hfs])
          | boxedPtr al contents =>
              have hc : contents = some v := by
                simpa [Erased.read, ErasedUninit.read, hfs] using hv
              subst hc
              exact ⟨_, rfl, rfl, by simp⟩

/-- What `Erased::drop_fn` yields for a sized shape: `none` only when the
shape has no destructor (and storage is inline), and any returned routine,
applied to a readable cell, succeeds and invokes the destructor exactly once
when the shape has one and never otherwise. -/
theorem dropFnSpec {α : Type} (s : Shape α) (l : Layout)
    (hs : s.layout.sized_layout = some l) :
    ∃ dk, Erased.drop_fn s = some dk ∧ (dk = none → s.dropInPlace = none) ∧
      ∀ g, dk = some g → ∀ cell : Erased α, (Erased.read cell s).isSome →
        ∃ tr, g cell = some tr ∧
          tr.countP DropEvent.isDestructorCall = (if s.dropInPlace.isSome then 1 else 0) := by
  cases hfs : ErasedStorage.for_shape s with
  | Inline =>
      cases hd : s.dropInPlace with
      | none =>
          refine ⟨none, ?_, ?_, ?_⟩
          · simp [Erased.drop_fn, hs, hfs, hd]
          · intro _
            rfl
          · intro g hg
            cases hg
      | some u =>
          refine ⟨some (Erased.dropRoutine .Inline (some u) l), ?_, ?_, ?_⟩
          · simp [Erased.drop_fn, hs, hfs, hd]
          · intro h
            cases h
          · intro g hg cell hcell
            injection hg with hg
            subst hg
            cases cell with
            | mk repr =>
              cases repr with
              | inline contents =>
                  cases contents with
                  | none =>
                      exact absurd hcell (by simp [Erased.read, ErasedUninit.read, hfs])
                  | some v =>
                      exact ⟨_, rfl, by simp [hd, Erased.dropRoutine,
                        DropEvent.isDestructorCall]⟩
              | boxedPtr al contents =>
                  exact absurd hcell (by simp [Erased.read, ErasedUninit.read, hfs])
  | Boxed =>
      refine ⟨some (Erased.dropRoutine .Boxed s.dropInPlace l), ?_, ?_, ?_⟩
      · cases hd : s.dropInPlace with
        | none => simp [Erased.drop_fn, hs, hfs, hd]
        | some u => simp [Erased.drop_fn, hs, hfs, hd]
      · intro h
        cases h
      · intro g hg cell hcell
        injection hg with hg
        subst hg
        cases cell with
        | mk repr =>
          cases repr with
          | inline contents =>
              exact absurd hcell (by simp [Erased.read, ErasedUninit.read, hfs])
          | boxedPtr al contents =>
              cases contents with
              | none =>
                  exact absurd hcell (by simp [Erased.read, ErasedUninit.read, hfs])
              | some v =>
                  cases hd : s.dropInPlace with
                  | none =>
                      exact ⟨_, rfl, by simp [DropEvent.isDestructorCall]⟩
                  | some u =>
                      exact ⟨_, rfl, by simp [DropEvent.isDestructorCall]⟩

/-- Counting key-classified events in a key-mapped trace. -/
theorem countP_key_map_key {α β : Type} (l : List (DropEvent α)) :
    (l.map (TableDropEvent.key (β := β))).countP isKeyDestructorCall =
      l.countP DropEvent.isDestructorCall := by
  induction l with
  | nil => rfl
  | cons e rest ih =>
      cases e <;> simp [isKeyDestructorCall, DropEvent.isDestructorCall, List.countP_cons, ih]

/-- A key-mapped trace holds no value-destructor invocations. -/
theorem countP_value_map_key {α β : Type} (l : List (DropEvent α)) :
    (l.map (TableDropEvent.key (β := β))).countP isValueDestructorCall = 0 := by
  induction l with
  | nil => rfl
  | cons e rest ih =>
      cases e <;> simp [isValueDestructorCall, List.countP_cons, ih]

/-- Counting value-classified events in a value-mapped trace. -/
theorem countP_value_map_value {α β : Type} (l : List (DropEvent β)) :
    (l.map (TableDropEvent.value (α := α))).countP isValueDestructorCall =
      l.countP DropEvent.isDestructorCall := by
  induction l with
  | nil => rfl
  | cons e rest ih =>
      cases e <;> simp [isValueDestructorCall, DropEvent.isDestructorCall, List.countP_cons, ih]

/-- A value-mapped trace holds no key-destructor invocations. -/
theorem countP_key_map_value {α β : Type} (l : List (DropEvent β)) :
    (l.map (TableDropEvent.value (α := α))).countP isKeyDestructorCall = 0 := by
  induction l with
  | nil => rfl
  | cons e rest ih =>
      cases e <;> simp [isKeyDestructorCall, List.countP_cons, ih]

/-- `mapM` over traces with per-element counts: the flattened trace's counts
are the per-element counts times the list length. -/
theorem mapM_flatten_counts {γ δ : Type} (f : γ → Option (List δ)) (p q : δ → Bool)
    (c₁ c₂ : Nat) (l : List γ)
    (h : ∀ x ∈ l, ∃ tr, f x = some tr ∧ tr.countP p = c₁ ∧ tr.countP q = c₂) :
    ∃ trs, l.mapM f = some trs ∧ trs.flatten.countP p = l.length * c₁ ∧
      trs.flatten.countP q = l.length * c₂ := by
  induction l with
  | nil => exact ⟨[], rfl, by simp, by simp⟩
  | cons x rest ih =>
      obtain ⟨tr, hx, hp, hq⟩ := h x (by simp)
      obtain ⟨trs, hrest, hps, hqs⟩ := ih (fun y hy => h y (by simp [hy]))
      refine ⟨tr :: trs, ?_, ?_, ?_⟩
      · rw [List.mapM_cons, hx, hrest]
        rfl
      · simp [List.countP_append, hp, hps, Nat.succ_mul, Nat.add_comm]
      · simp [List.countP_append, hq, hqs, Nat.succ_mul, Nat.add_comm]

/-- Shared counting lemma for `drop_keys_and_values`: on a table with
readable cells, it succeeds and invokes the key destructor once per resident
entry when the key shape has one (never otherwise), and likewise for the
value destructor. -/
theorem drop_keys_and_values_counts {α β : Type} (m : ErasedHashMap α β) (ks : Shape α)
    (vs : Shape β) (lk lv : Layout) (hks : ks.layout.sized_layout = some lk)
    (hvs : vs.layout.sized_layout = some lv) (hread : TableReadable ks vs m) :
    ∃ es, m.drop_keys_and_values ks vs = some es ∧
      es.countP isKeyDestructorCall =
        (if ks.dropInPlace.isSome then m.hash_table.length else 0) ∧
      es.countP isValueDestructorCall =
        (if vs.dropInPlace.isSome then m.hash_table.length else 0) := by
  obtain ⟨dk, hdk, hdkNone, hdkApp⟩ := dropFnSpec ks lk hks
  obtain ⟨dv, hdv, hdvNone, hdvApp⟩ := dropFnSpec vs lv hvs
  have hperEntry : ∀ p ∈ m.hash_table, ∃ tr,
      ErasedHashMap.entryDropEvents dk dv p = some tr ∧
      tr.countP isKeyDestructorCall = (if ks.dropInPlace.isSome then 1 else 0) ∧
      tr.countP isValueDestructorCall = (if vs.dropInPlace.isSome then 1 else 0) := by
    intro p hp
    obtain ⟨hkr, hvr⟩ := hread p hp
    have hkey : ∃ trK, ErasedHashMap.applyDropRoutine dk p.2.key.toErased = some trK ∧
        trK.countP DropEvent.isDestructorCall = (if ks.dropInPlace.isSome then 1 else 0) := by
      cases dk with
      | none =>
          refine ⟨[], rfl, ?_⟩
          rw [hdkNone rfl]
          rfl
      | some g =>
          obtain ⟨tr, htr, hc⟩ := hdkApp g rfl p.2.key.toErased hkr
          exact ⟨tr, htr, hc⟩
    have hvalue : ∃ trV, ErasedHashMap.applyDropRoutine dv p.2.value.toErased = some trV ∧
        trV.countP DropEvent.isDestructorCall = (if vs.dropInPlace.isSome then 1 else 0) := by
      cases dv with
      | none =>
          refine ⟨[], rfl, ?_⟩
          rw [hdvNone rfl]
          rfl
      | some g =>
          obtain ⟨tr, htr, hc⟩ := hdvApp g rfl p.2.value.toErased hvr
          exact ⟨tr, htr, hc⟩
    obtain ⟨trK, htrK, hcK⟩ := hkey
    obtain ⟨trV, htrV, hcV⟩ := hvalue
    refine ⟨trK.map TableDropEvent.key ++ trV.map TableDropEvent.value, ?_, ?_, ?_⟩
    · unfold ErasedHashMap.entryDropEvents
      rw [htrK, htrV]
      rfl
    · rw [List.countP_append, countP_key_map_key, countP_key_map_value, hcK, Nat.add_zero]
    · rw [List.countP_append, countP_value_map_key, countP_value_map_value, hcV,
        Nat.zero_add]
  unfold ErasedHashMap.drop_keys_and_values
  rw [hdk, hdv]
  simp only [Option.bind_eq_bind, Option.some_bind]
  cases hcase : (dk.isSome || dv.isSome) with
  | false =>
      have h₁ : dk = none := by
        cases dk with
        | none => rfl
        | some g => simp at hcase
      have h₂ : dv = none := by
        cases dv with
        | none => rfl
        | some g => simp at hcase
      refine ⟨[], by simp, ?_, ?_⟩
      · rw [hdkNone h₁]
        simp
      · rw [hdvNone h₂]
        simp
  | true =>
      obtain ⟨trs, htrs, hps, hqs⟩ := mapM_flatten_counts _ isKeyDestructorCall
        isValueDestructorCall _ _ m.hash_table hperEntry
      refine ⟨trs.flatten, ?_, ?_, ?_⟩
      · rw [if_pos rfl, htrs]
        rfl
      · rw [hps]
        cases hd : ks.dropInPlace <;> simp
      · rw [hqs]
        cases hd : vs.dropInPlace <;> simp

/-- Witness for C8 at a concrete boxed shape with a destructor. -/
theorem claim_C8_witness :
    (ErasedStorage.for_shape boxedNatShape = .Inline → boxedNatShape.dropInPlace = none →
        Erased.drop_fn boxedNatShape = some none) ∧
    (∀ u : Unit, boxedNatShape.dropInPlace = some u →
        ∃ g, Erased.drop_fn boxedNatShape = some (some g) ∧
          ∀ cell v, Erased.read cell boxedNatShape = some v →
            ∃ es, g cell = some es ∧ es.head? = some (DropEvent.destructorCall v)) ∧
    (ErasedStorage.for_shape boxedNatShape = .Boxed →
        ∃ g, Erased.drop_fn boxedNatShape = some (some g) ∧
          (∀ u ev, Erased.uninit boxedNatShape = some (u, ev) →
            ev = [AllocEvent.alloc ⟨16, 8⟩]) ∧
          ∀ cell v, Erased.read cell boxedNatShape = some v →
            ∃ es, g cell = some es ∧ es.getLast? = some (DropEvent.dealloc ⟨16, 8⟩) ∧
              (boxedNatShape.dropInPlace = none → es = [DropEvent.dealloc ⟨16, 8⟩])) :=
  claim_C8 boxedNatShape ⟨16, 8⟩ rfl

/-- `ErasedHashMap::insert` emits no destruction events: the source contains
no drop-routine invocation on this path (shared helper). -/
theorem insert_trace_eq_nil {α β : Type} {m m₂ : ErasedHashMap α β} {kc : ErasedKey α}
    {ks : Shape α} {vc : ErasedValue β} {old : Option (ErasedValue β)}
    {tr : List (TableDropEvent α β)}
    (h : ErasedHashMap.insert m kc ks vc = some (m₂, old, tr)) : tr = [] := by
  simp only [ErasedHashMap.insert, Option.bind_eq_bind, Option.bind_eq_some,
    Option.pure_def, Option.some.injEq, Prod.mk.injEq] at h
  obtain ⟨k, hk, hash, hh, eqE, he, ⟨t, old'⟩, ht, hm, hold, htr⟩ := h
  exact htr.symm

/-- Counting a façade classifier over a table-mapped trace reduces to the
table-level classifier. -/
theorem countP_facade_table {α β : Type} (q : FacadeDropEvent α β → Bool)
    (l : List (TableDropEvent α β)) :
    (l.map FacadeDropEvent.table).countP q = l.countP (fun e => q (FacadeDropEvent.table e)) := by
  rw [List.countP_map]
  rfl

/-- Claim C3: `drop_keys_and_values` invokes the key descriptor's destructor
once per resident entry and the value descriptor's destructor once per
resident entry — so destroying a table holding M resident entries of a type
whose destructor increments a counter increments it exactly M times — and
`insert` never invokes a destructor, so the counter does not move before the
table is destroyed (`get` builds no destruction trace at all in the
embedding because the source `get` contains no drop call). -/
theorem claim_C3 {α β : Type} (m : ErasedHashMap α β) (ks : Shape α) (vs : Shape β)
    (lk lv : Layout) (hks : ks.layout.sized_layout = some lk)
    (hvs : vs.layout.sized_layout = some lv) (hread : TableReadable ks vs m) :
    (∃ es, m.drop_keys_and_values ks vs = some es ∧
      es.countP isKeyDestructorCall =
        (if ks.dropInPlace.isSome then m.hash_table.length else 0) ∧
      es.countP isValueDestructorCall =
        (if vs.dropInPlace.isSome then m.hash_table.length else 0)) ∧
    ∀ (m₁ m₂ : ErasedHashMap α β) (kc : ErasedKey α) (vc : ErasedValue β)
      (old : Option (ErasedValue β)) (tr : List (TableDropEvent α β)),
      ErasedHashMap.insert m₁ kc ks vc = some (m₂, old, tr) →
        tr.countP isKeyDestructorCall = 0 ∧ tr.countP isValueDestructorCall = 0 := by
  refine ⟨drop_keys_and_values_counts m ks vs lk lv hks hvs hread, ?_⟩
  intro m₁ m₂ kc vc old tr h
  rw [insert_trace_eq_nil h]
  exact ⟨rfl, rfl⟩

/-- The concrete two-entry table is in the readable state. -/
theorem witnessMap_readable : TableReadable inlineNatShape boxedNatShape witnessMap := by
  intro p hp
  simp only [witnessMap, witnessEntry, List.mem_cons, List.not_mem_nil, or_false] at hp
  rcases hp with rfl | rfl <;> exact ⟨by decide, by decide⟩

/-- Witness for C3: a table with two resident entries, inline destructor-free
keys and boxed destructor-carrying values: destroying it invokes the value
destructor exactly twice and the key destructor never. -/
theorem claim_C3_witness :
    ∃ es, witnessMap.drop_keys_and_values inlineNatShape boxedNatShape = some es ∧
      es.countP isKeyDestructorCall = 0 ∧ es.countP isValueDestructorCall = 2 := by
  obtain ⟨⟨es, h₁, h₂, h₃⟩, _⟩ := claim_C3 witnessMap inlineNatShape boxedNatShape
    ⟨8, 8⟩ ⟨16, 8⟩ rfl rfl witnessMap_readable
  exact ⟨es, h₁, by simpa [witnessMap, inlineNatShape] using h₂,
    by simpa [witnessMap, boxedNatShape, witnessEntry] using h₃⟩

/-- Claim C2: destroying a `FacetHashMap` invokes `drop_keys_and_values` on
its erased table with K's and V's shapes, and the raw table storage release
is the single final event, strictly after every destructor invocation; each
still-resident key and value is destroyed exactly once (once per resident
entry when the respective shape has a destructor, never otherwise). -/
theorem claim_C2 {α β : Type} (m : FacetHashMap α β) (ks : Shape α) (vs : Shape β)
    (lk lv : Layout) (hks : ks.layout.sized_layout = some lk)
    (hvs : vs.layout.sized_layout = some lv) (hread : TableReadable ks vs m.hash_map) :
    ∃ tes fes, m.hash_map.drop_keys_and_values ks vs = some tes ∧
      m.dropEvents ks vs = some fes ∧
      fes = tes.map FacadeDropEvent.table ++ [FacadeDropEvent.releaseRawStorage] ∧
      fes.getLast? = some FacadeDropEvent.releaseRawStorage ∧
      fes.countP FacadeDropEvent.isRelease = 1 ∧
      fes.countP FacadeDropEvent.isKeyDestructorCall =
        (if ks.dropInPlace.isSome then m.hash_map.hash_table.length else 0) ∧
      fes.countP FacadeDropEvent.isValueDestructorCall =
        (if vs.dropInPlace.isSome then m.hash_map.hash_table.length else 0) := by
  obtain ⟨tes, htes, hkc, hvc⟩ :=
    drop_keys_and_values_counts m.hash_map ks vs lk lv hks hvs hread
  refine ⟨tes, tes.map FacadeDropEvent.table ++ [FacadeDropEvent.releaseRawStorage],
    htes, ?_, rfl, ?_, ?_, ?_, ?_⟩
  · simp [FacetHashMap.dropEvents, htes]
  · rw [List.getLast?_concat]
  · rw [List.countP_append, countP_facade_table]
    have hz : tes.countP (fun e => FacadeDropEvent.isRelease (FacadeDropEvent.table e)) = 0 := by
      simp [FacadeDropEvent.isRelease]
    rw [hz]
    rfl
  · rw [List.countP_append, countP_facade_table]
    have hone : ([FacadeDropEvent.releaseRawStorage (α := α) (β := β)]).countP
        FacadeDropEvent.isKeyDestructorCall = 0 := rfl
    rw [hone, Nat.add_zero, ← hkc]
    rfl
  · rw [List.countP_append, countP_facade_table]
    have hone : ([FacadeDropEvent.releaseRawStorage (α := α) (β := β)]).countP
        FacadeDropEvent.isValueDestructorCall = 0 := rfl
    rw [hone, Nat.add_zero, ← hvc]
    rfl

/-- Witness for C2 at the concrete two-entry façade map. -/
theorem claim_C2_witness :
    ∃ tes fes, witnessFacetMap.hash_map.drop_keys_and_values inlineNatShape boxedNatShape
        = some tes ∧
      witnessFacetMap.dropEvents inlineNatShape boxedNatShape = some fes ∧
      fes.getLast? = some FacadeDropEvent.releaseRawStorage ∧
      fes.countP FacadeDropEvent.isRelease = 1 ∧
      fes.countP FacadeDropEvent.isKeyDestructorCall = 0 ∧
      fes.countP FacadeDropEvent.isValueDestructorCall = 2 := by
  obtain ⟨tes, fes, h₁, h₂, _, h₄, h₅, h₆, h₇⟩ := claim_C2 witnessFacetMap
    inlineNatShape boxedNatShape ⟨8, 8⟩ ⟨16, 8⟩ rfl rfl witnessMap_readable
  exact ⟨tes, fes, h₁, h₂, h₄, h₅,
    by simpa [witnessFacetMap, witnessMap, inlineNatShape] using h₆,
    by simpa [witnessFacetMap, witnessMap, boxedNatShape, witnessEntry] using h₇⟩

/-- Structure of the occupied arm of `tableInsert`: some probed entry has its
value cell replaced in place while keeping its resident key cell, every other
entry is untouched, and the displaced value cell is handed back. -/
theorem tableInsert_occupied {α β : Type} (eqE : HashTableEntry α β → Option Bool)
    (h : Nat) (kc : ErasedKey α) (vc : ErasedValue β) (t t' : HashTable α β)
    (old : ErasedValue β)
    (hins : tableInsert eqE h kc vc t = some (t', some old)) :
    t'.map (fun p => p.2.key) = t.map (fun p => p.2.key) ∧
    ∃ i sh entry, t.get? i = some (sh, entry) ∧
      t' = t.set i (sh, ⟨entry.key, vc⟩) ∧ old = entry.value := by
  induction t generalizing t' with
  | nil =>
      simp [tableInsert] at hins
  | cons p rest ih =>
      obtain ⟨sh, entry⟩ := p
      rw [tableInsert] at hins
      by_cases hsh : sh = h
      · rw [if_pos hsh] at hins
        cases heq : eqE entry with
        | none =>
            rw [heq] at hins
            cases hins
        | some b =>
            cases b with
            | true =>
                rw [heq] at hins
                injection hins with hins
                obtain ⟨ht', hold⟩ := Prod.mk.injEq .. ▸ hins
                injection hold with hold
                refine ⟨?_, 0, sh, entry, rfl, ?_, hold.symm⟩
                · rw [← ht']
                  rfl
                · rw [← ht']
                  rfl
            | false =>
                rw [heq] at hins
                simp only [Option.bind_eq_bind, Option.bind_eq_some, Option.pure_def,
                  Option.some.injEq] at hins
                obtain ⟨⟨t₂, old₂⟩, hrec, hpair⟩ := hins
                obtain ⟨ht', hold⟩ := Prod.mk.injEq .. ▸ hpair
                subst ht'
                obtain ⟨hmap, i, sh', e', hget, hset, holdv⟩ := ih t₂ (hold ▸ hrec)
                refine ⟨?_, i + 1, sh', e', hget, ?_, holdv⟩
                · simp [hmap]
                · simp [hset]
      · rw [if_neg hsh] at hins
        simp only [Option.bind_eq_bind, Option.bind_eq_some, Option.pure_def,
          Option.some.injEq] at hins
        obtain ⟨⟨t₂, old₂⟩, hrec, hpair⟩ := hins
        obtain ⟨ht', hold⟩ := Prod.mk.injEq .. ▸ hpair
        subst ht'
        obtain ⟨hmap, i, sh', e', hget, hset, holdv⟩ := ih t₂ (hold ▸ hrec)
        refine ⟨?_, i + 1, sh', e', hget, ?_, holdv⟩
        · simp [hmap]
        · simp [hset]

/-- Claim C10: an insert that finds an occupied entry with an equal key
replaces only that entry's value cell: the entry keeps the key cell stored by
the earlier insert, every other entry of the table is unchanged (the table's
key cells are exactly those from before), the displaced value cell is
returned, and the call emits no destruction events — in particular the
newly supplied key cell is discarded without its destructor being invoked. -/
theorem claim_C10 {α β : Type} (m m' : ErasedHashMap α β) (kc : ErasedKey α) (ks : Shape α)
    (vc : ErasedValue β) (old : ErasedValue β) (tr : List (TableDropEvent α β))
    (h : ErasedHashMap.insert m kc ks vc = some (m', some old, tr)) :
    tr = [] ∧
    m'.hash_table.map (fun p => p.2.key) = m.hash_table.map (fun p => p.2.key) ∧
    ∃ i sh entry, m.hash_table.get? i = some (sh, entry) ∧
      m'.hash_table = m.hash_table.set i (sh, ⟨entry.key, vc⟩) ∧ old = entry.value := by
  have htr : tr = [] := insert_trace_eq_nil h
  subst htr
  refine ⟨rfl, ?_⟩
  simp only [ErasedHashMap.insert, Option.bind_eq_bind, Option.bind_eq_some,
    Option.pure_def, Option.some.injEq, Prod.mk.injEq] at h
  obtain ⟨k, hk, hash, hh, eqE, he, ⟨t, old'⟩, ht, hm, hold, -⟩ := h
  obtain ⟨hmap, i, sh, entry, hget, hset, holdv⟩ :=
    tableInsert_occupied eqE hash kc vc m.hash_table t old
      (by rw [ht, show old' = some old from hold])
  exact ⟨by rw [← hm, hmap], i, sh, entry, hget, by rw [← hm, hset], holdv⟩

/-- Witness for C10: replacing the value under key 1 in the concrete
two-entry map keeps the old key cell, returns the old value cell, and emits
no destruction events. -/
theorem claim_C10_witness :
    ∃ m' old,
      ErasedHashMap.insert witnessMap ⟨⟨.inline (some 1)⟩⟩ inlineNatShape
        ⟨⟨.boxedPtr ⟨16, 8⟩ (some 11)⟩⟩ = some (m', some old, []) ∧
      ([] : List (TableDropEvent Nat Nat)) = [] ∧
      m'.hash_table.map (fun p => p.2.key) = witnessMap.hash_table.map (fun p => p.2.key) ∧
      ∃ i sh entry, witnessMap.hash_table.get? i = some (sh, entry) ∧
        m'.hash_table = witnessMap.hash_table.set i (sh, ⟨entry.key,
          ⟨⟨.boxedPtr ⟨16, 8⟩ (some 11)⟩⟩⟩) ∧ old = entry.value := by
  refine ⟨⟨[(exampleBuilder [1],
      ⟨⟨⟨.inline (some 1)⟩⟩, ⟨⟨.boxedPtr ⟨16, 8⟩ (some 11)⟩⟩⟩), witnessEntry 2 20],
      exampleBuilder⟩,
    ⟨⟨.boxedPtr ⟨16, 8⟩ (some 10)⟩⟩, ?_, ?_⟩
  · rfl
  · exact claim_C10 witnessMap _ ⟨⟨.inline (some 1)⟩⟩ inlineNatShape
      ⟨⟨.boxedPtr ⟨16, 8⟩ (some 11)⟩⟩ ⟨⟨.boxedPtr ⟨16, 8⟩ (some 10)⟩⟩ [] rfl

/-- `make_key_ref_hasher` when the shape supplies a hash routine. -/
theorem make_key_ref_hasher_eq {α : Type} (hb : List Nat → Nat) (ks : Shape α)
    (f : α → List Nat) (hf : ks.hashFn = some f) :
    make_key_ref_hasher hb ks = some (fun k => hb (f k)) := by
  simp [make_key_ref_hasher, hf]

/-- `make_hash` when the shape supplies a hash routine. -/
theorem make_hash_eq {α : Type} (hb : List Nat → Nat) (k : α) (ks : Shape α)
    (f : α → List Nat) (hf : ks.hashFn = some f) :
    make_hash hb k ks = some (hb (f k)) := by
  simp [make_hash, make_key_ref_hasher_eq hb ks f hf]

/-- `make_eq` when the shape supplies an equality routine. -/
theorem make_eq_eq {α β : Type} (k : α) (ks : Shape α) (e : α → α → Bool)
    (he : ks.partialEq = some e) :
    make_eq (β := β) k ks =
      some (fun entry => (entry.key.toErased.read ks).map (fun sk => e k sk)) := by
  simp [make_eq, he]

/-- `tableFind` is total when the probe predicate is defined on every
resident entry. -/
theorem tableFind_total {α β : Type} (eqE : HashTableEntry α β → Option Bool) (h : Nat)
    (t : HashTable α β) (htot : ∀ p ∈ t, (eqE p.2).isSome) :
    ∃ r, tableFind eqE h t = some r := by
  induction t with
  | nil => exact ⟨none, rfl⟩
  | cons p rest ih =>
      obtain ⟨sh, entry⟩ := p
      rw [tableFind]
      by_cases hsh : sh = h
      · rw [if_pos hsh]
        cases heq : eqE entry with
        | none =>
            have := htot (sh, entry) (by simp)
            rw [heq] at this
            cases this
        | some b =>
            cases b with
            | true => exact ⟨some entry, rfl⟩
            | false => exact ih (fun p hp => htot p (by simp [hp]))
      · rw [if_neg hsh]
        exact ih (fun p hp => htot p (by simp [hp]))

/-- `tableInsert` is total when the probe predicate is defined on every
resident entry. -/
theorem tableInsert_total {α β : Type} (eqE : HashTableEntry α β → Option Bool) (h : Nat)
    (kc : ErasedKey α) (vc : ErasedValue β) (t : HashTable α β)
    (htot : ∀ p ∈ t, (eqE p.2).isSome) :
    ∃ r, tableInsert eqE h kc vc t = some r := by
  induction t with
  | nil => exact ⟨_, rfl⟩
  | cons p rest ih =>
      obtain ⟨sh, entry⟩ := p
      rw [tableInsert]
      by_cases hsh : sh = h
      · rw [if_pos hsh]
        cases heq : eqE entry with
        | none =>
            have := htot (sh, entry) (by simp)
            rw [heq] at this
            cases this
        | some b =>
            cases b with
            | true => exact ⟨_, rfl⟩
            | false =>
                obtain ⟨⟨t₂, old₂⟩, hr⟩ := ih (fun p hp => htot p (by simp [hp]))
                exact ⟨((sh, entry) :: t₂, old₂), by rw [hr]; rfl⟩
      · rw [if_neg hsh]
        obtain ⟨⟨t₂, old₂⟩, hr⟩ := ih (fun p hp => htot p (by simp [hp]))
        exact ⟨((sh, entry) :: t₂, old₂), by rw [hr]; rfl⟩

/-- Claim C9: when the key descriptor supplies hash and equality routines (as
the façade's `K: Hash + Eq` trait bounds guarantee at the type level — a key
type without them cannot instantiate the façade at all, so the absence is
signalled by the type system, not at runtime), `insert` and `get` never fail
logically: both return plain values, and a lookup miss is the ordinary `none`
inside `get`'s successful result — there is no recoverable error value in the
contract. -/
theorem claim_C9 {α β : Type} (m : ErasedHashMap α β) (ks : Shape α)
    (f : α → List Nat) (e : α → α → Bool) (hf : ks.hashFn = some f)
    (he : ks.partialEq = some e)
    (hkeys : ∀ p ∈ m.hash_table, (p.2.key.toErased.read ks).isSome) :
    (∀ k : α, ∃ r : Option (ErasedValue β), m.get k ks = some r) ∧
    (∀ (kc : ErasedKey α) (vc : ErasedValue β), (kc.toErased.read ks).isSome →
      ∃ res, ErasedHashMap.insert m kc ks vc = some res) := by
  have heqtot : ∀ (k : α) (p : Nat × HashTableEntry α β), p ∈ m.hash_table →
      (((fun entry : HashTableEntry α β =>
        (entry.key.toErased.read ks).map (fun sk => e k sk))) p.2).isSome := by
    intro k p hp
    have := hkeys p hp
    cases hr : p.2.key.toErased.read ks with
    | none => rw [hr] at this; cases this
    | some sk => simp [hr]
  constructor
  · intro k
    obtain ⟨r, hr⟩ := tableFind_total
      (fun entry => (entry.key.toErased.read ks).map (fun sk => e k sk))
      (m.hash_builder (f k)) m.hash_table (heqtot k)
    refine ⟨r.map (fun entry => entry.value), ?_⟩
    simp only [ErasedHashMap.get, make_hash_eq m.hash_builder k ks f hf,
      make_eq_eq k ks e he, Option.bind_eq_bind, Option.some_bind, hr,
      Option.pure_def]
  · intro kc vc hkc
    cases hk : kc.toErased.read ks with
    | none => rw [hk] at hkc; cases hkc
    | some k =>
        obtain ⟨⟨t, old⟩, hr⟩ := tableInsert_total
          (fun entry => (entry.key.toErased.read ks).map (fun sk => e k sk))
          (m.hash_builder (f k)) kc vc m.hash_table (heqtot k)
        refine ⟨(⟨t, m.hash_builder⟩, old, []), ?_⟩
        simp only [ErasedHashMap.insert, hk, make_hash_eq m.hash_builder k ks f hf,
          make_eq_eq k ks e he, Option.bind_eq_bind, Option.some_bind, hr,
          Option.pure_def]

/-- Witness for C9 at the concrete two-entry map and keys 1 (hit) and 3
(miss). -/
theorem claim_C9_witness :
    ((∀ k : Nat, ∃ r : Option (ErasedValue Nat), witnessMap.get k inlineNatShape = some r) ∧
      (∀ (kc : ErasedKey Nat) (vc : ErasedValue Nat),
        (kc.toErased.read inlineNatShape).isSome →
          ∃ res, ErasedHashMap.insert witnessMap kc inlineNatShape vc = some res)) ∧
    witnessMap.get 3 inlineNatShape = some none := by
  refine ⟨claim_C9 witnessMap inlineNatShape (fun n => [n]) (fun a b => a == b) rfl rfl
    (fun p hp => (witnessMap_readable p hp).1), ?_⟩
  rfl

/-- `tableInsert` refines `specInsert` on represented tables: the resulting
table represents the spec list after insertion, and the displaced value cell
(when any) reads back to the spec's displaced value. -/
theorem tableInsert_rep {α β : Type} (hb : List Nat → Nat) (ks : Shape α) (vs : Shape β)
    (f : α → List Nat) (e : α → α → Bool) (L : LawfulKey ks f e)
    (k : α) (kc : ErasedKey α) (hkc : kc.toErased.read ks = some k)
    (v : β) (vc : ErasedValue β) (hvc : vc.toErased.read vs = some v)
    (t : HashTable α β) (spec : List (α × β))
    (hrep : List.Forall₂ (EntryRep hb ks vs f) t spec) :
    ∃ t' old, tableInsert
        (fun entry => (entry.key.toErased.read ks).map (fun sk => e k sk))
        (hb (f k)) kc vc t = some (t', old) ∧
      List.Forall₂ (EntryRep hb ks vs f) t' (specInsert e k v spec).1 ∧
      ((specInsert e k v spec).2 = none → old = none) ∧
      (∀ w, (specInsert e k v spec).2 = some w →
        ∃ oc, old = some oc ∧ oc.toErased.read vs = some w) := by
  induction hrep with
  | nil =>
      refine ⟨[(hb (f k), ⟨kc, vc⟩)], none, rfl, ?_, fun _ => rfl, ?_⟩
      · exact List.Forall₂.cons ⟨rfl, hkc, hvc⟩ List.Forall₂.nil
      · intro w hw
        simp [specInsert] at hw
  | @cons p q t₀ spec₀ hpq hrest ih =>
      obtain ⟨sh, entry⟩ := p
      obtain ⟨k', v'⟩ := q
      obtain ⟨hsh, hkey, hval⟩ := hpq
      replace hsh : sh = hb (f k') := hsh
      replace hkey : entry.key.toErased.read ks = some k' := hkey
      replace hval : entry.value.toErased.read vs = some v' := hval
      cases hek : e k k' with
      | true =>
          have hfk : f k = f k' := L.hash_coherent k k' hek
          have hcond : sh = hb (f k) := by rw [hsh, hfk]
          have heqE : (entry.key.toErased.read ks).map (fun sk => e k sk) = some true := by
            rw [hkey]
            simp [hek]
          refine ⟨(sh, ⟨entry.key, vc⟩) :: t₀, some entry.value, ?_, ?_, ?_, ?_⟩
          · rw [tableInsert, if_pos hcond]
            simp only [heqE]
          · simp only [specInsert, hek, if_true]
            exact List.Forall₂.cons ⟨hsh, hkey, hvc⟩ hrest
          · intro hw
            simp [specInsert, hek] at hw
          · intro w hw
            simp only [specInsert, hek, if_true, Option.some.injEq] at hw
            exact ⟨entry.value, rfl, hw ▸ hval⟩
      | false =>
          obtain ⟨t₂, old₂, hrec, hrep₂, hnone₂, hsome₂⟩ := ih
          have hspec : specInsert e k v ((k', v') :: spec₀) =
              ((k', v') :: (specInsert e k v spec₀).1, (specInsert e k v spec₀).2) := by
            simp [specInsert, hek]
          by_cases hcond : sh = hb (f k)
          · have heqE : (entry.key.toErased.read ks).map (fun sk => e k sk)
                = some false := by
              rw [hkey]
              simp [hek]
            refine ⟨(sh, entry) :: t₂, old₂, ?_, ?_, ?_, ?_⟩
            · rw [tableInsert, if_pos hcond]
              simp only [heqE, hrec, Option.bind_eq_bind, Option.some_bind,
                Option.pure_def]
            · rw [hspec]
              exact List.Forall₂.cons ⟨hsh, hkey, hval⟩ hrep₂
            · rw [hspec]
              exact hnone₂
            · rw [hspec]
              exact hsome₂
          · refine ⟨(sh, entry) :: t₂, old₂, ?_, ?_, ?_, ?_⟩
            · rw [tableInsert, if_neg hcond]
              simp only [hrec, Option.bind_eq_bind, Option.some_bind, Option.pure_def]
            · rw [hspec]
              exact List.Forall₂.cons ⟨hsh, hkey, hval⟩ hrep₂
            · rw [hspec]
              exact hnone₂
            · rw [hspec]
              exact hsome₂

/-- `tableFind` refines `specLookup` on represented tables. -/
theorem tableFind_rep {α β : Type} (hb : List Nat → Nat) (ks : Shape α) (vs : Shape β)
    (f : α → List Nat) (e : α → α → Bool) (L : LawfulKey ks f e) (k : α)
    (t : HashTable α β) (spec : List (α × β))
    (hrep : List.Forall₂ (EntryRep hb ks vs f) t spec) :
    ∃ r, tableFind (fun entry => (entry.key.toErased.read ks).map (fun sk => e k sk))
        (hb (f k)) t = some r ∧
      (specLookup e k spec = none → r = none) ∧
      (∀ w, specLookup e k spec = some w →
        ∃ entry, r = some entry ∧ entry.value.toErased.read vs = some w) := by
  induction hrep with
  | nil =>
      refine ⟨none, rfl, fun _ => rfl, ?_⟩
      intro w hw
      simp [specLookup] at hw
  | @cons p q t₀ spec₀ hpq hrest ih =>
      obtain ⟨sh, entry⟩ := p
      obtain ⟨k', v'⟩ := q
      obtain ⟨hsh, hkey, hval⟩ := hpq
      replace hsh : sh = hb (f k') := hsh
      replace hkey : entry.key.toErased.read ks = some k' := hkey
      replace hval : entry.value.toErased.read vs = some v' := hval
      cases hek : e k k' with
      | true =>
          have hfk : f k = f k' := L.hash_coherent k k' hek
          have hcond : sh = hb (f k) := by rw [hsh, hfk]
          have heqE : (entry.key.toErased.read ks).map (fun sk => e k sk) = some true := by
            rw [hkey]
            simp [hek]
          refine ⟨some entry, ?_, ?_, ?_⟩
          · rw [tableFind, if_pos hcond]
            simp only [heqE]
          · intro hw
            simp [specLookup, hek] at hw
          · intro w hw
            simp only [specLookup, hek, if_true, Option.some.injEq] at hw
            exact ⟨entry, rfl, hw ▸ hval⟩
      | false =>
          obtain ⟨r, hfind, hnone, hsome⟩ := ih
          have hspec : specLookup e k ((k', v') :: spec₀) = specLookup e k spec₀ := by
            simp [specLookup, hek]
          by_cases hcond : sh = hb (f k)
          · have heqE : (entry.key.toErased.read ks).map (fun sk => e k sk)
                = some false := by
              rw [hkey]
              simp [hek]
            refine ⟨r, ?_, ?_, ?_⟩
            · rw [tableFind, if_pos hcond]
              simp only [heqE, hfind]
            · rw [hspec]
              exact hnone
            · rw [hspec]
              exact hsome
          · refine ⟨r, ?_, ?_, ?_⟩
            · rw [tableFind, if_neg hcond]
              exact hfind
            · rw [hspec]
              exact hnone
            · rw [hspec]
              exact hsome

/-- Evaluation of `ErasedHashMap::insert` on a key cell reading `k`, when the
shape supplies both routines. -/
theorem ErasedHashMap_insert_eq {α β : Type} (m : ErasedHashMap α β) (kc : ErasedKey α)
    (ks : Shape α) (vc : ErasedValue β) (k : α) (f : α → List Nat) (e : α → α → Bool)
    (hf : ks.hashFn = some f) (he : ks.partialEq = some e)
    (hkc : kc.toErased.read ks = some k) (t' : HashTable α β)
    (old : Option (ErasedValue β))
    (hins : tableInsert (fun entry => (entry.key.toErased.read ks).map (fun sk => e k sk))
        (m.hash_builder (f k)) kc vc m.hash_table = some (t', old)) :
    ErasedHashMap.insert m kc ks vc = some (⟨t', m.hash_builder⟩, old, []) := by
  simp only [ErasedHashMap.insert, hkc, make_hash_eq m.hash_builder k ks f hf,
    make_eq_eq k ks e he, Option.bind_eq_bind, Option.some_bind, hins, Option.pure_def]

/-- Evaluation of `ErasedHashMap::get` on a borrowed key, when the shape
supplies both routines. -/
theorem ErasedHashMap_get_eq {α β : Type} (m : ErasedHashMap α β) (k : α) (ks : Shape α)
    (f : α → List Nat) (e : α → α → Bool) (hf : ks.hashFn = some f)
    (he : ks.partialEq = some e) (r : Option (HashTableEntry α β))
    (hfind : tableFind (fun entry => (entry.key.toErased.read ks).map (fun sk => e k sk))
        (m.hash_builder (f k)) m.hash_table = some r) :
    m.get k ks = some (r.map fun entry => entry.value) := by
  simp only [ErasedHashMap.get, make_hash_eq m.hash_builder k ks f hf,
    make_eq_eq k ks e he, Option.bind_eq_bind, Option.some_bind, hfind, Option.pure_def]

/-- The typed façade's insert refines `specInsert`: the returned displaced
value is the spec-level displaced value, the new state represents the
spec-level state after insertion, and no destruction event is emitted. -/
theorem FacetHashMap_insert_spec {α β : Type} (hb : List Nat → Nat) (ks : Shape α)
    (vs : Shape β) (f : α → List Nat) (e : α → α → Bool) (L : LawfulKey ks f e)
    (lv : Layout) (hvs : vs.layout.sized_layout = some lv)
    (m : FacetHashMap α β) (spec : List (α × β)) (hrep : MapRep hb ks vs f m spec)
    (k : α) (v : β) :
    ∃ m', FacetHashMap.insert m ks vs k v = some (m', (specInsert e k v spec).2, []) ∧
      MapRep hb ks vs f m' (specInsert e k v spec).1 := by
  obtain ⟨hbEq, hforall⟩ := hrep
  obtain ⟨lk, hlk⟩ := Option.isSome_iff_exists.mp L.sized
  obtain ⟨ekc, ev₁, hek, hekRead⟩ := Erased.new_read ks lk hlk k
  obtain ⟨evc, ev₂, hev, hevRead⟩ := Erased.new_read vs lv hvs v
  obtain ⟨t', old, hins, hrep', hnone, hsome⟩ :=
    tableInsert_rep hb ks vs f e L k ⟨ekc⟩ hekRead v ⟨evc⟩ hevRead
      m.hash_map.hash_table spec hforall
  rw [← hbEq] at hins
  have hierased : ErasedHashMap.insert m.hash_map ⟨ekc⟩ ks ⟨evc⟩ =
      some (⟨t', m.hash_map.hash_builder⟩, old, []) :=
    ErasedHashMap_insert_eq m.hash_map ⟨ekc⟩ ks ⟨evc⟩ k f e L.hash_eq L.eq_eq
      hekRead t' old hins
  refine ⟨⟨⟨t', m.hash_map.hash_builder⟩⟩, ?_, hbEq, hrep'⟩
  cases hsp : (specInsert e k v spec).2 with
  | none =>
      have hold : old = none := hnone hsp
      subst hold
      simp only [FacetHashMap.insert, hek, hev, hierased, Option.bind_eq_bind,
        Option.some_bind, Option.pure_def]
  | some w =>
      obtain ⟨oc, holdc, hocr⟩ := hsome w hsp
      subst holdc
      simp only [FacetHashMap.insert, hek, hev, hierased, Option.bind_eq_bind,
        Option.some_bind, Option.pure_def, Erased.into_typed, hocr]
      rfl

/-- The typed façade's get refines `specLookup`. -/
theorem FacetHashMap_get_spec {α β : Type} (hb : List Nat → Nat) (ks : Shape α)
    (vs : Shape β) (f : α → List Nat) (e : α → α → Bool) (L : LawfulKey ks f e)
    (m : FacetHashMap α β) (spec : List (α × β)) (hrep : MapRep hb ks vs f m spec)
    (k : α) :
    FacetHashMap.get m ks vs k = some (specLookup e k spec) := by
  obtain ⟨hbEq, hforall⟩ := hrep
  obtain ⟨r, hfind, hnone, hsome⟩ :=
    tableFind_rep hb ks vs f e L k m.hash_map.hash_table spec hforall
  rw [← hbEq] at hfind
  have hg : m.hash_map.get k ks = some (r.map fun entry => entry.value) :=
    ErasedHashMap_get_eq m.hash_map k ks f e L.hash_eq L.eq_eq r hfind
  cases hsp : specLookup e k spec with
  | none =>
      have hr : r = none := hnone hsp
      subst hr
      simp only [FacetHashMap.get, hg, Option.bind_eq_bind, Option.some_bind,
        Option.pure_def]
      rfl
  | some w =>
      obtain ⟨entry, hr, hread⟩ := hsome w hsp
      subst hr
      simp only [FacetHashMap.get, hg, Option.bind_eq_bind, Option.some_bind,
        Option.pure_def, Option.map_some']
      rw [hread]
      rfl

/-- Running a sequence of façade inserts refines `specRun`. -/
theorem runInserts_spec {α β : Type} (hb : List Nat → Nat) (ks : Shape α) (vs : Shape β)
    (f : α → List Nat) (e : α → α → Bool) (L : LawfulKey ks f e)
    (lv : Layout) (hvs : vs.layout.sized_layout = some lv) (ops : List (α × β)) :
    ∀ (m : FacetHashMap α β) (spec : List (α × β)), MapRep hb ks vs f m spec →
      ∃ m', FacetHashMap.runInserts ks vs m ops = some m' ∧
        MapRep hb ks vs f m' (specRun e spec ops) := by
  induction ops with
  | nil => exact fun m spec h => ⟨m, rfl, h⟩
  | cons p rest ih =>
      intro m spec h
      obtain ⟨k, v⟩ := p
      obtain ⟨m₁, hins, hrep₁⟩ := FacetHashMap_insert_spec hb ks vs f e L lv hvs m spec h k v
      obtain ⟨m', hrun, hrep'⟩ := ih m₁ _ hrep₁
      refine ⟨m', ?_, hrep'⟩
      rw [FacetHashMap.runInserts, hins]
      simpa using hrun

/-- The displaced value of a spec-level insert is the spec-level lookup. -/
theorem specInsert_snd_eq_lookup {α β : Type} (e : α → α → Bool) (k : α) (v : β)
    (t : List (α × β)) : (specInsert e k v t).2 = specLookup e k t := by
  induction t with
  | nil => rfl
  | cons p rest ih =>
      obtain ⟨k₁, v₁⟩ := p
      by_cases h : e k k₁ = true
      · simp [specInsert, specLookup, h]
      · simp only [Bool.not_eq_true] at h
        simp [specInsert, specLookup, h, ih]

/-- Lookup after a spec-level insert, under the equivalence laws of `e`. -/
theorem specLookup_specInsert {α β : Type} (e : α → α → Bool)
    (hsymm : ∀ a b, e a b = e b a)
    (htrans : ∀ a b c, e a b = true → e b c = true → e a c = true)
    (k k' : α) (v : β) (t : List (α × β)) :
    specLookup e k' (specInsert e k v t).1 =
      if e k' k then some v else specLookup e k' t := by
  induction t with
  | nil =>
      simp [specInsert, specLookup]
  | cons p rest ih =>
      obtain ⟨k₁, v₁⟩ := p
      by_cases h1 : e k k₁ = true
      · have heq : e k' k₁ = e k' k := by
          by_cases h2 : e k' k = true
          · rw [h2, htrans k' k k₁ h2 h1]
          · simp only [Bool.not_eq_true] at h2
            rw [h2]
            cases h3 : e k' k₁ with
            | false => rfl
            | true =>
                have h4 : e k₁ k = true := by
                  rw [hsymm k₁ k]
                  exact h1
                have := htrans k' k₁ k h3 h4
                rw [h2] at this
                cases this
        simp only [specInsert, h1, if_true]
        simp only [specLookup, heq]
        cases h2 : e k' k <;> simp
      · simp only [Bool.not_eq_true] at h1
        simp only [specInsert, h1, Bool.false_eq_true, if_false]
        simp only [specLookup, ih]
        by_cases h2 : e k' k₁ = true
        · have h3 : e k' k = false := by
            cases h4 : e k' k with
            | false => rfl
            | true =>
                have h5 : e k k' = true := by
                  rw [hsymm k k']
                  exact h4
                have := htrans k k' k₁ h5 h2
                rw [h1] at this
                cases this
          rw [h2, h3]
          simp
        · simp only [Bool.not_eq_true] at h2
          rw [h2]
          simp

/-- `foldl` computing the last matching value, generalized over the
accumulator. -/
theorem lastVal_foldl {α β : Type} (e : α → α → Bool) (k : α) (ops : List (α × β))
    (acc : Option β) :
    ops.foldl (fun acc p => if e k p.1 then some p.2 else acc) acc =
      match lastVal e k ops with
      | some w => some w
      | none => acc := by
  induction ops generalizing acc with
  | nil => simp [lastVal]
  | cons p rest ih =>
      rw [List.foldl_cons, ih]
      have h2 : lastVal e k (p :: rest) =
          match lastVal e k rest with
          | some w => some w
          | none => if e k p.1 then some p.2 else none := by
        rw [lastVal, List.foldl_cons, ih]
      rw [h2]
      cases lastVal e k rest with
      | some w => rfl
      | none => cases hp : e k p.1 <;> rfl

/-- Lookup after a spec-level run: the last inserted value under an equal
key, or the lookup in the initial state when no insert matched. -/
theorem specLookup_specRun {α β : Type} (e : α → α → Bool)
    (hsymm : ∀ a b, e a b = e b a)
    (htrans : ∀ a b c, e a b = true → e b c = true → e a c = true)
    (k : α) (ops : List (α × β)) :
    ∀ init : List (α × β), specLookup e k (specRun e init ops) =
      match lastVal e k ops with
      | some w => some w
      | none => specLookup e k init := by
  induction ops with
  | nil =>
      intro init
      simp [specRun, lastVal]
  | cons p rest ih =>
      intro init
      obtain ⟨k₁, v₁⟩ := p
      have hstep : specRun e init ((k₁, v₁) :: rest) =
          specRun e (specInsert e k₁ v₁ init).1 rest := rfl
      rw [hstep, ih, specLookup_specInsert e hsymm htrans k₁ k v₁ init]
      have h2 : lastVal e k ((k₁, v₁) :: rest) =
          match lastVal e k rest with
          | some w => some w
          | none => if e k k₁ then some v₁ else none := by
        rw [lastVal, List.foldl_cons, lastVal_foldl]
      rw [h2]
      cases lastVal e k rest with
      | some w => rfl
      | none => cases hek : e k k₁ <;> rfl

/-- A key that matches no key of `ops` has no last value. -/
theorem lastVal_of_not_mem {α β : Type} (e : α → α → Bool) (k : α) (ops : List (α × β))
    (h : ∀ p ∈ ops, e k p.1 = false) : lastVal e k ops = none := by
  induction ops with
  | nil => rfl
  | cons p rest ih =>
      have h2 : lastVal e k (p :: rest) =
          match lastVal e k rest with
          | some w => some w
          | none => if e k p.1 then some p.2 else none := by
        rw [lastVal, List.foldl_cons, lastVal_foldl]
      rw [h2, ih (fun q hq => h q (by simp [hq]))]
      rw [h p (by simp)]
      rfl

/-- A key that matches no resident key is absent. -/
theorem specLookup_eq_none_of {α β : Type} (e : α → α → Bool) (k : α)
    (t : List (α × β)) (h : ∀ p ∈ t, e k p.1 = false) : specLookup e k t = none := by
  induction t with
  | nil => rfl
  | cons p rest ih =>
      obtain ⟨k₁, v₁⟩ := p
      have h1 : e k k₁ = false := h (k₁, v₁) (by simp)
      simp only [specLookup, h1, Bool.false_eq_true, if_false]
      exact ih (fun q hq => h q (by simp [hq]))

/-- Keys of a spec-level insert result come from the inserted key or the
previous keys. -/
theorem specInsert_forall_keys {α β : Type} (e : α → α → Bool) (k : α) (v : β)
    (t : List (α × β)) (P : α → Prop) (ht : ∀ p ∈ t, P p.1) (hk : P k) :
    ∀ p ∈ (specInsert e k v t).1, P p.1 := by
  induction t with
  | nil =>
      intro p hp
      simp only [specInsert, List.mem_singleton] at hp
      subst hp
      exact hk
  | cons q rest ih =>
      obtain ⟨k₁, v₁⟩ := q
      by_cases h1 : e k k₁ = true
      · intro p hp
        simp only [specInsert, h1, if_true, List.mem_cons] at hp
        rcases hp with rfl | hp
        · exact ht (k₁, v₁) (by simp)
        · exact ht p (by simp [hp])
      · simp only [Bool.not_eq_true] at h1
        intro p hp
        simp only [specInsert, h1, Bool.false_eq_true, if_false, List.mem_cons] at hp
        rcases hp with rfl | hp
        · exact ht (k₁, v₁) (by simp)
        · exact ih (fun q hq => ht q (by simp [hq])) p hp

/-- Inserting an absent key appends one entry. -/
theorem specInsert_length_of_none {α β : Type} (e : α → α → Bool) (k : α) (v : β)
    (t : List (α × β)) (h : specLookup e k t = none) :
    (specInsert e k v t).1.length = t.length + 1 := by
  induction t with
  | nil => rfl
  | cons p rest ih =>
      obtain ⟨k₁, v₁⟩ := p
      by_cases h1 : e k k₁ = true
      · simp [specLookup, h1] at h
      · simp only [Bool.not_eq_true] at h1
        simp only [specLookup, h1, Bool.false_eq_true, if_false] at h
        simp [specInsert, h1, ih h]

/-- Inserting a present key keeps the entry count. -/
theorem specInsert_length_of_some {α β : Type} (e : α → α → Bool) (k : α) (v w : β)
    (t : List (α × β)) (h : specLookup e k t = some w) :
    (specInsert e k v t).1.length = t.length := by
  induction t with
  | nil => cases h
  | cons p rest ih =>
      obtain ⟨k₁, v₁⟩ := p
      by_cases h1 : e k k₁ = true
      · simp [specInsert, h1]
      · simp only [Bool.not_eq_true] at h1
        simp only [specLookup, h1, Bool.false_eq_true, if_false] at h
        simp [specInsert, h1, ih h]

/-- A spec-level run of pairwise-distinct keys grows the state by one entry
per insert. -/
theorem specRun_length_distinct {α β : Type} (e : α → α → Bool) (ops : List (α × β)) :
    ∀ init : List (α × β),
      (∀ x ∈ init, ∀ p ∈ ops, e p.1 x.1 = false) →
      ops.Pairwise (fun p q => e q.1 p.1 = false) →
      (specRun e init ops).length = init.length + ops.length := by
  induction ops with
  | nil =>
      intro init _ _
      simp [specRun]
  | cons p rest ih =>
      intro init hinit hpw
      obtain ⟨k, v⟩ := p
      obtain ⟨hk, hpw'⟩ := List.pairwise_cons.mp hpw
      have habs : specLookup e k init = none :=
        specLookup_eq_none_of e k init
          (fun x hx => hinit x hx (k, v) (by simp))
      have hstep : specRun e init ((k, v) :: rest) =
          specRun e (specInsert e k v init).1 rest := rfl
      rw [hstep, ih (specInsert e k v init).1 ?_ hpw',
        specInsert_length_of_none e k v init habs]
      · simp [Nat.add_comm, Nat.add_assoc, Nat.add_left_comm]
      · intro x hx q hq
        refine specInsert_forall_keys e k v init (fun z => ∀ q ∈ rest, e q.1 z = false)
          ?_ ?_ x hx q hq
        · intro y hy q' hq'
          exact hinit y hy q' (by simp [hq'])
        · intro q' hq'
          exact hk q' hq'

/-- The concrete inline `Nat` key descriptor satisfies the key contract. -/
theorem natLawful : LawfulKey inlineNatShape (fun n => [n]) (fun a b => a == b) := by
  refine ⟨rfl, rfl, rfl, ?_, ?_, ?_, ?_⟩
  · intro a
    simp
  · intro a b
    by_cases h : a = b
    · subst h
      rfl
    · have h1 : (a == b) = false := by simpa using h
      have h2 : (b == a) = false := by simpa using (Ne.symm h)
      rw [h1, h2]
  · intro a b c hab hbc
    have h1 : a = b := by simpa using hab
    have h2 : b = c := by simpa using hbc
    subst h1
    subst h2
    simp
  · intro a b hab
    have h1 : a = b := by simpa using hab
    rw [h1]

/-- Claim C1: over any sequence of typed-façade inserts, after `insert(k, v)`
`get(k)` returns the inserted `v` for as long as no later insert carries an
equal key; a second `insert(k, v₂)` returns the displaced `v` and makes
`get(k)` return `v₂`; and an insert whose key is not yet present returns
`None`. -/
theorem claim_C1 {α β : Type} (hb : List Nat → Nat) (ks : Shape α) (vs : Shape β)
    (f : α → List Nat) (e : α → α → Bool) (L : LawfulKey ks f e)
    (lv : Layout) (hvs : vs.layout.sized_layout = some lv)
    (pre mid : List (α × β)) (k : α) (v v₂ : β)
    (hmid : ∀ p ∈ mid, e k p.1 = false) :
    ∃ m, FacetHashMap.runInserts ks vs (FacetHashMap.emptyWith hb)
        (pre ++ (k, v) :: mid) = some m ∧
      FacetHashMap.get m ks vs k = some (some v) ∧
      (∃ m₂, FacetHashMap.insert m ks vs k v₂ = some (m₂, some v, []) ∧
        FacetHashMap.get m₂ ks vs k = some (some v₂)) ∧
      ∀ (ops₀ : List (α × β)) (m₀ : FacetHashMap α β) (k₀ : α) (v₀ : β),
        FacetHashMap.runInserts ks vs (FacetHashMap.emptyWith hb) ops₀ = some m₀ →
        (∀ p ∈ ops₀, e k₀ p.1 = false) →
        ∃ m₁, FacetHashMap.insert m₀ ks vs k₀ v₀ = some (m₁, none, []) := by
  have hrep₀ : MapRep hb ks vs f (FacetHashMap.emptyWith hb) ([] : List (α × β)) :=
    ⟨rfl, List.Forall₂.nil⟩
  obtain ⟨m, hrun, hrepm⟩ := runInserts_spec hb ks vs f e L lv hvs
    (pre ++ (k, v) :: mid) (FacetHashMap.emptyWith hb) [] hrep₀
  have hlast : lastVal e k (pre ++ (k, v) :: mid) = some v := by
    rw [lastVal, List.foldl_append, List.foldl_cons, lastVal_foldl,
      lastVal_of_not_mem e k mid hmid]
    simp [L.refl k]
  have hlook : specLookup e k (specRun e [] (pre ++ (k, v) :: mid)) = some v := by
    rw [specLookup_specRun e L.symm L.trans k _ [], hlast]
  refine ⟨m, hrun, ?_, ?_, ?_⟩
  · rw [FacetHashMap_get_spec hb ks vs f e L m _ hrepm k, hlook]
  · obtain ⟨m₂, hins, hrep₂⟩ :=
      FacetHashMap_insert_spec hb ks vs f e L lv hvs m _ hrepm k v₂
    rw [specInsert_snd_eq_lookup, hlook] at hins
    refine ⟨m₂, hins, ?_⟩
    rw [FacetHashMap_get_spec hb ks vs f e L m₂ _ hrep₂ k,
      specLookup_specInsert e L.symm L.trans k k v₂ _, L.refl k]
    rfl
  · intro ops₀ m₀ k₀ v₀ hrun₀ habs
    obtain ⟨m₀', hrun₁, hrep₁⟩ := runInserts_spec hb ks vs f e L lv hvs ops₀
      (FacetHashMap.emptyWith hb) [] hrep₀
    rw [hrun₀] at hrun₁
    injection hrun₁ with hm
    subst hm
    obtain ⟨m₁, hins, -⟩ :=
      FacetHashMap_insert_spec hb ks vs f e L lv hvs m₀ _ hrep₁ k₀ v₀
    rw [specInsert_snd_eq_lookup] at hins
    have habs₂ : specLookup e k₀ (specRun e [] ops₀) = none := by
      rw [specLookup_specRun e L.symm L.trans k₀ ops₀ [],
        lastVal_of_not_mem e k₀ ops₀ habs]
      rfl
    rw [habs₂] at hins
    exact ⟨m₁, hins⟩

/-- Witness for C1: inserts (5,50), (1,10), (2,20); get 1 yields 10; the
second insert of key 1 displaces 10 and makes get 1 yield 11. -/
theorem claim_C1_witness :
    ∃ m, FacetHashMap.runInserts inlineNatShape inlineNatShape
        (FacetHashMap.emptyWith exampleBuilder) [(5, 50), (1, 10), (2, 20)] = some m ∧
      FacetHashMap.get m inlineNatShape inlineNatShape 1 = some (some 10) ∧
      ∃ m₂, FacetHashMap.insert m inlineNatShape inlineNatShape 1 11
          = some (m₂, some 10, []) ∧
        FacetHashMap.get m₂ inlineNatShape inlineNatShape 1 = some (some 11) := by
  obtain ⟨m, hrun, hget, ⟨m₂, hins, hget₂⟩, -⟩ := claim_C1 exampleBuilder inlineNatShape
    inlineNatShape (fun n => [n]) (fun a b => a == b) natLawful ⟨8, 8⟩ rfl
    [(5, 50)] [(2, 20)] 1 10 11 (by decide)
  exact ⟨m, hrun, hget, m₂, hins, hget₂⟩

/-- Claim C5: a run of N inserts with pairwise eq-distinct keys leaves
exactly N entries in the table, and an insert whose key is already present
never changes the entry count. -/
theorem claim_C5 {α β : Type} (hb : List Nat → Nat) (ks : Shape α) (vs : Shape β)
    (f : α → List Nat) (e : α → α → Bool) (L : LawfulKey ks f e)
    (lv : Layout) (hvs : vs.layout.sized_layout = some lv) (ops : List (α × β))
    (hdist : ops.Pairwise (fun p q => e q.1 p.1 = false)) :
    (∃ m, FacetHashMap.runInserts ks vs (FacetHashMap.emptyWith hb) ops = some m ∧
      m.hash_map.hash_table.length = ops.length) ∧
    ∀ (ops₀ : List (α × β)) (m₀ : FacetHashMap α β) (k : α) (v w : β),
      FacetHashMap.runInserts ks vs (FacetHashMap.emptyWith hb) ops₀ = some m₀ →
      FacetHashMap.get m₀ ks vs k = some (some w) →
      ∃ m₁ old, FacetHashMap.insert m₀ ks vs k v = some (m₁, old, []) ∧
        m₁.hash_map.hash_table.length = m₀.hash_map.hash_table.length := by
  have hrep₀ : MapRep hb ks vs f (FacetHashMap.emptyWith hb) ([] : List (α × β)) :=
    ⟨rfl, List.Forall₂.nil⟩
  constructor
  · obtain ⟨m, hrun, hbEq, hforall⟩ := runInserts_spec hb ks vs f e L lv hvs ops _ [] hrep₀
    refine ⟨m, hrun, ?_⟩
    rw [List.Forall₂.length_eq hforall,
      specRun_length_distinct e ops [] (by simp) hdist]
    simp
  · intro ops₀ m₀ k v w hrun₀ hget
    obtain ⟨m₀', hrun', hrep'⟩ := runInserts_spec hb ks vs f e L lv hvs ops₀ _ [] hrep₀
    rw [hrun₀] at hrun'
    injection hrun' with hm
    subst hm
    have hlook : specLookup e k (specRun e [] ops₀) = some w := by
      have hg := FacetHashMap_get_spec hb ks vs f e L m₀ _ hrep' k
      rw [hget] at hg
      exact (Option.some.inj hg).symm
    obtain ⟨m₁, hins, hbEq₁, hforall₁⟩ :=
      FacetHashMap_insert_spec hb ks vs f e L lv hvs m₀ _ hrep' k v
    refine ⟨m₁, _, hins, ?_⟩
    rw [List.Forall₂.length_eq hforall₁, specInsert_length_of_some e k v w _ hlook,
      ← List.Forall₂.length_eq hrep'.2]

/-- Witness for C5: two distinct keys leave two entries, and re-inserting the
present key 1 keeps the count at two. -/
theorem claim_C5_witness :
    ∃ m, FacetHashMap.runInserts inlineNatShape inlineNatShape
        (FacetHashMap.emptyWith exampleBuilder) [(1, 10), (2, 20)] = some m ∧
      m.hash_map.hash_table.length = 2 := by
  obtain ⟨⟨m, hrun, hlen⟩, -⟩ := claim_C5 exampleBuilder inlineNatShape inlineNatShape
    (fun n => [n]) (fun a b => a == b) natLawful ⟨8, 8⟩ rfl [(1, 10), (2, 20)] (by decide)
  exact ⟨m, hrun, hlen⟩

/-- Claim C6: a key never inserted (no inserted key equals it) is
absent: `get(k)` returns `None`. -/
theorem claim_C6 {α β : Type} (hb : List Nat → Nat) (ks : Shape α) (vs : Shape β)
    (f : α → List Nat) (e : α → α → Bool) (L : LawfulKey ks f e)
    (lv : Layout) (hvs : vs.layout.sized_layout = some lv) (ops : List (α × β)) (k : α)
    (habs : ∀ p ∈ ops, e k p.1 = false) :
    ∃ m, FacetHashMap.runInserts ks vs (FacetHashMap.emptyWith hb) ops = some m ∧
      FacetHashMap.get m ks vs k = some none := by
  have hrep₀ : MapRep hb ks vs f (FacetHashMap.emptyWith hb) ([] : List (α × β)) :=
    ⟨rfl, List.Forall₂.nil⟩
  obtain ⟨m, hrun, hrepm⟩ := runInserts_spec hb ks vs f e L lv hvs ops _ [] hrep₀
  refine ⟨m, hrun, ?_⟩
  rw [FacetHashMap_get_spec hb ks vs f e L m _ hrepm k,
    specLookup_specRun e L.symm L.trans k ops [],
    lastVal_of_not_mem e k ops habs]
  rfl

/-- Witness for C6: key 3 was never inserted; get 3 yields `None`. -/
theorem claim_C6_witness :
    ∃ m, FacetHashMap.runInserts inlineNatShape inlineNatShape
        (FacetHashMap.emptyWith exampleBuilder) [(1, 10), (2, 20)] = some m ∧
      FacetHashMap.get m inlineNatShape inlineNatShape 3 = some none :=
  claim_C6 exampleBuilder inlineNatShape inlineNatShape (fun n => [n])
    (fun a b => a == b) natLawful ⟨8, 8⟩ rfl [(1, 10), (2, 20)] 3 (by decide)

end FacetHashmap
